import Mathlib

/-!
# Verification of the Heap_management segment ledger

Shallow embedding of `src/Heap_management.c`: the two global linked lists
`availableSegs` (free segments) and `occupiedSegs` (allocated segments)
become two Lean lists inside a `HeapState`; the C functions
`requestMemory`, `combineFreeSegments` and `releaseMemory` become pure
state-passing functions.  A C pointer handle `(char*)simulatedHeap + start`
is modelled as the natural number `base + start` where `base` stands for
the address of `simulatedHeap`; the null pointer is modelled as
`Option.none`.  C `int` sizes are modelled as `Int` at the API boundary
(the code rejects `size <= 0`) and as `Nat` inside the ledger, where all
stored values are provably non-negative.
-/

/-- One node of the C `MemSegment` linked list, keeping the two fields the
algorithms read (`startAddr`, `length`).  The C `memPtr` field of an
allocated segment always equals `base + startAddr`, so it is recomputed
from `startAddr` rather than stored; the `next` pointer is the list
structure itself. -/
structure MemSegment where
  startAddr : Nat
  length : Nat
deriving DecidableEq, Repr

/-- The global state of the C program: `availableSegs` (free list) and
`occupiedSegs` (allocated list). -/
structure HeapState where
  availableSegs : List MemSegment
  occupiedSegs : List MemSegment
deriving DecidableEq, Repr

/-- Failure modes of `requestMemory`: `invalidSize` is the
`size <= 0` branch (prints "Invalid memory request size"), `outOfMemory`
is the `ptr == NULL` branch after the first-fit scan. -/
inductive AllocError where
  | invalidSize
  | outOfMemory
deriving DecidableEq, Repr

/-- Failure modes of `releaseMemory`: `nullHandle` is the `!memPtr`
branch, `unknownHandle` is the "Attempted to free unallocated memory"
branch. -/
inductive FreeError where
  | nullHandle
  | unknownHandle
deriving DecidableEq, Repr

/-- The `setupHeap` function of the C code: one free segment spanning the
whole simulated heap, no occupied segments. -/
def setupHeap : HeapState :=
  ⟨[⟨0, 1024⟩], []⟩

/-- The first-fit scan and split of `requestMemory` (lines 95-131 of the C
file): walk the free list while `size > ptr->length`; at the first
segment with `size <= length`, record its `startAddr`, advance its start
by `size`, shrink its length by `size`, and unlink it when the remaining
length is zero.  Returns the chosen start address and the updated free
list, or `none` when no segment fits. -/
def allocFromFree (size : Nat) : List MemSegment → Option (Nat × List MemSegment)
  | [] => none
  | seg :: rest =>
    if size ≤ seg.length then
      some (seg.startAddr,
        if seg.length - size = 0 then rest
        else ⟨seg.startAddr + size, seg.length - size⟩ :: rest)
    else
      match allocFromFree size rest with
      | none => none
      | some (a, rest') => some (a, seg :: rest')

/-- The `requestMemory` function of the C code.  `base` models the address of
`simulatedHeap`; the returned handle `base + start` models the returned
`memPtr = (char*)simulatedHeap + ptr->startAddr` (computed before the free
segment is shrunk).  The new allocated segment is appended at the tail of
the occupied list, as the C walk-to-end append does.  On the two error
returns the C function has not touched the global lists, so the state is
returned unchanged. -/
def requestMemory (base : Nat) (size : Int) (st : HeapState) :
    Except AllocError Nat × HeapState :=
  if size ≤ 0 then
    (.error .invalidSize, st)
  else
    match allocFromFree size.toNat st.availableSegs with
    | none => (.error .outOfMemory, st)
    | some (a, rest) =>
        (.ok (base + a), ⟨rest, st.occupiedSegs ++ [⟨a, size.toNat⟩]⟩)

/-- The body of the `combineFreeSegments` loop with the current node `ptr`
made explicit: when `ptr` ends exactly where the next segment starts, the
next segment is absorbed into `ptr` and the extended `ptr` is compared to
the new successor before advancing; otherwise `ptr` advances. -/
def combineAux (seg : MemSegment) : List MemSegment → List MemSegment
  | [] => [seg]
  | next :: rest =>
    if seg.startAddr + seg.length = next.startAddr then
      combineAux ⟨seg.startAddr, seg.length + next.length⟩ rest
    else
      seg :: combineAux next rest

/-- The `combineFreeSegments` function of the C code: walk the free list; whenever a
segment ends exactly where its successor starts, absorb the successor into
the segment and compare the extended segment with the new successor before
advancing. -/
def combineFreeSegments : List MemSegment → List MemSegment
  | [] => []
  | seg :: rest => combineAux seg rest

/-- The search-and-unlink loop of `releaseMemory` (lines 170-189): find
the first occupied segment whose `memPtr` (that is, `base + startAddr`)
equals the argument, remove it, and return it together with the remaining
occupied list; `none` when no segment matches. -/
def removeOccupied (base h : Nat) : List MemSegment → Option (MemSegment × List MemSegment)
  | [] => none
  | seg :: rest =>
    if base + seg.startAddr = h then
      some (seg, rest)
    else
      match removeOccupied base h rest with
      | none => none
      | some (s, rest') => some (s, seg :: rest')

/-- The sorted reinsertion loop of `releaseMemory` (lines 192-204): walk
the free list while `curr->startAddr < ptr1->startAddr` and link the freed
segment in before the first segment whose start is not smaller. -/
def insertFree (seg : MemSegment) : List MemSegment → List MemSegment
  | [] => [seg]
  | curr :: rest =>
    if curr.startAddr < seg.startAddr then
      curr :: insertFree seg rest
    else
      seg :: curr :: rest

/-- The `releaseMemory` function of the C code: a null handle and an unknown handle are
reported without touching the lists; otherwise the segment is unlinked
from the occupied list, reinserted into the free list in start order, and
`combineFreeSegments` runs unconditionally. -/
def releaseMemory (base : Nat) (h : Option Nat) (st : HeapState) :
    Except FreeError Unit × HeapState :=
  match h with
  | none => (.error .nullHandle, st)
  | some hv =>
    match removeOccupied base hv st.occupiedSegs with
    | none => (.error .unknownHandle, st)
    | some (seg, occ) =>
        (.ok (), ⟨combineFreeSegments (insertFree seg st.availableSegs), occ⟩)

/-- The states reachable from `setupHeap` by any sequence of
`requestMemory` and `releaseMemory` calls, successful or failed. -/
inductive Reachable (base : Nat) : HeapState → Prop where
  | init : Reachable base setupHeap
  | alloc {st : HeapState} (size : Int) :
      Reachable base st → Reachable base (requestMemory base size st).2
  | release {st : HeapState} (h : Option Nat) :
      Reachable base st → Reachable base (releaseMemory base h st).2

/-- The address range of a segment contains `a`. -/
def covers (seg : MemSegment) (a : Nat) : Prop :=
  seg.startAddr ≤ a ∧ a < seg.startAddr + seg.length

instance (seg : MemSegment) (a : Nat) : Decidable (covers seg a) :=
  inferInstanceAs (Decidable (_ ∧ _))

/-- How many segments of the list contain address `a`. -/
def coverCount : List MemSegment → Nat → Nat
  | [], _ => 0
  | seg :: rest, a => (if covers seg a then 1 else 0) + coverCount rest a

/-- The address ranges of two segments are disjoint. -/
def segDisjoint (s t : MemSegment) : Prop :=
  s.startAddr + s.length ≤ t.startAddr ∨ t.startAddr + t.length ≤ s.startAddr

instance (s t : MemSegment) : Decidable (segDisjoint s t) :=
  inferInstanceAs (Decidable (_ ∨ _))

/-- Every segment of the list has strictly positive length. -/
def segsPos (l : List MemSegment) : Prop :=
  ∀ seg ∈ l, 0 < seg.length

/-- The first segment ends strictly before the second starts: ascending
order with a real gap (no overlap, no touching). -/
def segGapLt (s t : MemSegment) : Prop :=
  s.startAddr + s.length < t.startAddr

/-- The first segment ends at or before the second starts: ascending
order, no overlap, but possibly touching. -/
def segGapLe (s t : MemSegment) : Prop :=
  s.startAddr + s.length ≤ t.startAddr

/-- Consecutive free segments are separated by a real gap: the first ends
strictly before the second starts (ascending order, no overlap, no
touching). -/
def gapOrdered (l : List MemSegment) : Prop :=
  List.Chain' segGapLt l

/-- The ledger invariant: every address below 1024 is covered by exactly
one segment (free or occupied) and every address from 1024 up by none;
all segments are non-empty; the free list is gap-ordered. -/
def LedgerInv (st : HeapState) : Prop :=
  (∀ a : Nat, coverCount (st.availableSegs ++ st.occupiedSegs) a
      = if a < 1024 then 1 else 0) ∧
  segsPos st.availableSegs ∧ segsPos st.occupiedSegs ∧
  gapOrdered st.availableSegs

/-! ## Basic lemmas about the helper operations -/

theorem coverCount_append (l₁ l₂ : List MemSegment) (a : Nat) :
    coverCount (l₁ ++ l₂) a = coverCount l₁ a + coverCount l₂ a := by
  induction l₁ with
  | nil => simp [coverCount]
  | cons x xs ih => simp [coverCount, ih]; omega

theorem coverCount_perm {l₁ l₂ : List MemSegment} (p : l₁.Perm l₂) (a : Nat) :
    coverCount l₁ a = coverCount l₂ a := by
  induction p with
  | nil => rfl
  | cons x _ ih => simp [coverCount, ih]
  | swap x y l => simp [coverCount]; omega
  | trans _ _ ih₁ ih₂ => exact ih₁.trans ih₂

theorem coverCount_pos_of_mem {l : List MemSegment} {seg : MemSegment} {a : Nat}
    (hmem : seg ∈ l) (hcov : covers seg a) : 0 < coverCount l a := by
  induction l with
  | nil => simp at hmem
  | cons x xs ih =>
    rcases List.mem_cons.1 hmem with h | h
    · subst h; simp [coverCount, hcov]
    · have := ih h
      simp [coverCount]; omega

/-- Splitting a segment at offset `size` splits its coverage of any
address. -/
theorem covers_split (seg : MemSegment) (size a : Nat) (h : size ≤ seg.length) :
    (if covers seg a then 1 else 0)
      = (if covers ⟨seg.startAddr, size⟩ a then 1 else 0)
        + (if covers ⟨seg.startAddr + size, seg.length - size⟩ a then 1 else 0) := by
  simp only [covers]
  split_ifs <;> simp_all <;> omega

theorem allocFromFree_none {size : Nat} {l : List MemSegment} :
    allocFromFree size l = none ↔ ∀ seg ∈ l, seg.length < size := by
  induction l with
  | nil => simp [allocFromFree]
  | cons seg rest ih =>
    constructor
    · intro hc
      simp only [allocFromFree] at hc
      by_cases hle : size ≤ seg.length
      · rw [if_pos hle] at hc; cases hc
      · rw [if_neg hle] at hc
        intro s hs
        rcases List.mem_cons.1 hs with rfl | hs
        · omega
        · cases hrec : allocFromFree size rest with
          | none => exact ih.1 hrec s hs
          | some out => rw [hrec] at hc; cases hc
    · intro hall
      have hseg : seg.length < size := hall seg (by simp)
      simp only [allocFromFree]
      rw [if_neg (by omega),
        ih.2 (fun s hs => hall s (List.mem_cons_of_mem _ hs))]

theorem allocFromFree_some {size : Nat} :
    ∀ {l : List MemSegment} {a : Nat} {l' : List MemSegment},
    allocFromFree size l = some (a, l') →
    ∃ l₁ seg l₂, l = l₁ ++ seg :: l₂ ∧ (∀ s ∈ l₁, s.length < size) ∧
      size ≤ seg.length ∧ a = seg.startAddr ∧
      l' = (if seg.length - size = 0 then l₁ ++ l₂
            else l₁ ++ ⟨seg.startAddr + size, seg.length - size⟩ :: l₂) := by
  intro l
  induction l with
  | nil => intro a l' h; simp [allocFromFree] at h
  | cons seg rest ih =>
    intro a l' h
    simp only [allocFromFree] at h
    by_cases hle : size ≤ seg.length
    · rw [if_pos hle] at h
      refine ⟨[], seg, rest, by simp, by simp, hle, ?_, ?_⟩
      · cases h; rfl
      · cases h; split_ifs <;> simp
    · rw [if_neg hle] at h
      cases hrec : allocFromFree size rest with
      | none => rw [hrec] at h; cases h
      | some out =>
        obtain ⟨a₀, rest'⟩ := out
        rw [hrec] at h
        cases h
        obtain ⟨l₁, s, l₂, hdecomp, hsmall, hfit, ha, hrest⟩ := ih hrec
        refine ⟨seg :: l₁, s, l₂, by simp [hdecomp], ?_, hfit, ha, ?_⟩
        · intro x hx
          rcases List.mem_cons.1 hx with rfl | hx
          · omega
          · exact hsmall x hx
        · rw [hrest]; split_ifs <;> simp

theorem removeOccupied_none {base h : Nat} {l : List MemSegment} :
    removeOccupied base h l = none ↔ ∀ s ∈ l, base + s.startAddr ≠ h := by
  induction l with
  | nil => simp [removeOccupied]
  | cons seg rest ih =>
    constructor
    · intro hc
      simp only [removeOccupied] at hc
      by_cases heq : base + seg.startAddr = h
      · rw [if_pos heq] at hc; cases hc
      · rw [if_neg heq] at hc
        intro s hs
        rcases List.mem_cons.1 hs with rfl | hs
        · exact heq
        · cases hrec : removeOccupied base h rest with
          | none => exact ih.1 hrec s hs
          | some out => rw [hrec] at hc; cases hc
    · intro hall
      have hseg : base + seg.startAddr ≠ h := hall seg (by simp)
      simp only [removeOccupied]
      rw [if_neg hseg,
        ih.2 (fun s hs => hall s (List.mem_cons_of_mem _ hs))]

theorem removeOccupied_some {base h : Nat} :
    ∀ {l : List MemSegment} {seg : MemSegment} {l' : List MemSegment},
    removeOccupied base h l = some (seg, l') →
    ∃ l₁ l₂, l = l₁ ++ seg :: l₂ ∧ l' = l₁ ++ l₂ ∧
      (∀ s ∈ l₁, base + s.startAddr ≠ h) ∧ base + seg.startAddr = h := by
  intro l
  induction l with
  | nil => intro seg l' hc; simp [removeOccupied] at hc
  | cons x rest ih =>
    intro seg l' hc
    simp only [removeOccupied] at hc
    by_cases heq : base + x.startAddr = h
    · rw [if_pos heq] at hc
      cases hc
      exact ⟨[], rest, by simp, by simp, by simp, heq⟩
    · rw [if_neg heq] at hc
      cases hrec : removeOccupied base h rest with
      | none => rw [hrec] at hc; cases hc
      | some out =>
        obtain ⟨s₀, rest'⟩ := out
        rw [hrec] at hc
        cases hc
        obtain ⟨l₁, l₂, hdecomp, hl', hall, hseg⟩ := ih hrec
        exact ⟨x :: l₁, l₂, by simp [hdecomp], by simp [hl'], by
          intro s hs
          rcases List.mem_cons.1 hs with rfl | hs
          · exact heq
          · exact hall s hs, hseg⟩

theorem removeOccupied_append_last {base h : Nat} {l : List MemSegment}
    {x : MemSegment} (hall : ∀ s ∈ l, base + s.startAddr ≠ h)
    (hx : base + x.startAddr = h) :
    removeOccupied base h (l ++ [x]) = some (x, l) := by
  induction l with
  | nil => simp [removeOccupied, hx]
  | cons y ys ih =>
    have hy : base + y.startAddr ≠ h := hall y (by simp)
    have hrest : ∀ s ∈ ys, base + s.startAddr ≠ h :=
      fun s hs => hall s (List.mem_cons_of_mem _ hs)
    simp only [List.cons_append, removeOccupied, if_neg hy, List.append_eq, ih hrest]

theorem insertFree_perm (seg : MemSegment) (l : List MemSegment) :
    (insertFree seg l).Perm (seg :: l) := by
  induction l with
  | nil => simp [insertFree]
  | cons curr rest ih =>
    simp only [insertFree]
    split_ifs
    · exact (ih.cons curr).trans (List.Perm.swap seg curr rest)
    · exact List.Perm.refl _

theorem insertFree_append {seg : MemSegment} :
    ∀ {l₁ l₂ : List MemSegment},
    (∀ x ∈ l₁, x.startAddr < seg.startAddr) →
    (∀ y ∈ l₂.head?, ¬ y.startAddr < seg.startAddr) →
    insertFree seg (l₁ ++ l₂) = l₁ ++ seg :: l₂ := by
  intro l₁
  induction l₁ with
  | nil =>
    intro l₂ _ hhead
    cases l₂ with
    | nil => rfl
    | cons y ys =>
      have : ¬ y.startAddr < seg.startAddr := hhead y (by simp)
      simp [insertFree, this]
  | cons x xs ih =>
    intro l₂ hall hhead
    have hx : x.startAddr < seg.startAddr := hall x (by simp)
    simp only [List.cons_append, insertFree, if_pos hx, List.append_eq]
    rw [ih (fun z hz => hall z (List.mem_cons_of_mem _ hz)) hhead]

/-! ## Cover counting through each operation -/

/-- The first-fit split conserves address coverage: the carved allocated
segment accounts exactly for the coverage lost by the free list. -/
theorem allocFromFree_coverCount {size : Nat} {l : List MemSegment} {a₀ : Nat}
    {l' : List MemSegment} (h : allocFromFree size l = some (a₀, l')) (a : Nat) :
    coverCount l' a + (if covers ⟨a₀, size⟩ a then 1 else 0) = coverCount l a := by
  obtain ⟨l₁, seg, l₂, rfl, -, hfit, rfl, hl'⟩ := allocFromFree_some h
  have hsplit := covers_split seg size a hfit
  by_cases hz : seg.length - size = 0
  · rw [if_pos hz] at hl'
    subst hl'
    rw [coverCount_append, coverCount_append]
    simp only [coverCount]
    have : (if covers ⟨seg.startAddr + size, seg.length - size⟩ a then 1 else 0) = 0 := by
      simp only [covers, hz]
      split_ifs <;> omega
    omega
  · rw [if_neg hz] at hl'
    subst hl'
    rw [coverCount_append, coverCount_append]
    simp only [coverCount]
    omega

/-- The coalescing loop conserves address coverage. -/
theorem combineAux_coverCount :
    ∀ {l : List MemSegment} (seg : MemSegment) (a : Nat),
    coverCount (combineAux seg l) a
      = (if covers seg a then 1 else 0) + coverCount l a := by
  intro l
  induction l with
  | nil => intro seg a; simp [combineAux, coverCount]
  | cons next rest ih =>
    intro seg a
    simp only [combineAux]
    by_cases hadj : seg.startAddr + seg.length = next.startAddr
    · rw [if_pos hadj, ih]
      have key : (if covers ⟨seg.startAddr, seg.length + next.length⟩ a then 1 else 0)
          = (if covers seg a then 1 else 0) + (if covers next a then 1 else 0) := by
        simp only [covers]
        split_ifs <;> omega
      simp only [coverCount]
      omega
    · rw [if_neg hadj]
      simp only [coverCount, ih]

theorem combineFreeSegments_coverCount (l : List MemSegment) (a : Nat) :
    coverCount (combineFreeSegments l) a = coverCount l a := by
  cases l with
  | nil => rfl
  | cons seg rest => simp [combineFreeSegments, combineAux_coverCount, coverCount]

/-! ## Positivity through each operation -/

theorem combineAux_pos :
    ∀ {l : List MemSegment} {seg : MemSegment},
    0 < seg.length → segsPos l → segsPos (combineAux seg l) := by
  intro l
  induction l with
  | nil =>
    intro seg hs _
    intro x hx
    simp [combineAux] at hx
    subst hx; exact hs
  | cons next rest ih =>
    intro seg hs hl
    have hnext : 0 < next.length := hl next (by simp)
    have hrest : segsPos rest := fun s hs' => hl s (List.mem_cons_of_mem _ hs')
    simp only [combineAux]
    by_cases hadj : seg.startAddr + seg.length = next.startAddr
    · rw [if_pos hadj]
      exact ih (by simp; omega) hrest
    · rw [if_neg hadj]
      intro x hx
      rcases List.mem_cons.1 hx with rfl | hx
      · exact hs
      · exact ih hnext hrest x hx

theorem combineFreeSegments_pos {l : List MemSegment} (h : segsPos l) :
    segsPos (combineFreeSegments l) := by
  cases l with
  | nil => exact h
  | cons seg rest =>
    exact combineAux_pos (h seg (by simp))
      (fun s hs => h s (List.mem_cons_of_mem _ hs))

theorem insertFree_pos {seg : MemSegment} {l : List MemSegment}
    (hseg : 0 < seg.length) (hl : segsPos l) : segsPos (insertFree seg l) := by
  intro x hx
  have := (insertFree_perm seg l).mem_iff.1 hx
  rcases List.mem_cons.1 this with rfl | hx'
  · exact hseg
  · exact hl x hx'

/-! ## Gap ordering through coalescing -/

/-- Coalescing a list whose consecutive segments may touch but not overlap
produces a list whose consecutive segments never touch, and keeps the
start address of the first segment. -/
theorem combineAux_chain :
    ∀ {l : List MemSegment} {seg : MemSegment},
    List.Chain' segGapLe (seg :: l) →
    ∃ t l', combineAux seg l = t :: l' ∧ t.startAddr = seg.startAddr ∧
      List.Chain' segGapLt (t :: l') := by
  intro l
  induction l with
  | nil =>
    intro seg _
    exact ⟨seg, [], rfl, rfl, List.chain'_singleton seg⟩
  | cons next rest ih =>
    intro seg hchain
    obtain ⟨hsn, htail⟩ := List.chain'_cons.1 hchain
    simp only [combineAux]
    by_cases hadj : seg.startAddr + seg.length = next.startAddr
    · rw [if_pos hadj]
      have hmerged : List.Chain' segGapLe
          (⟨seg.startAddr, seg.length + next.length⟩ :: rest) := by
        rw [List.chain'_cons']
        refine ⟨?_, (List.chain'_cons'.1 htail).2⟩
        intro y hy
        have := (List.chain'_cons'.1 htail).1 y hy
        simp only [segGapLe] at this ⊢
        omega
      obtain ⟨t, l', heq, hstart, hlt⟩ := ih hmerged
      exact ⟨t, l', heq, by rw [hstart], hlt⟩
    · rw [if_neg hadj]
      obtain ⟨t, l', heq, hstart, hlt⟩ := ih htail
      refine ⟨seg, combineAux next rest, rfl, rfl, ?_⟩
      rw [heq, List.chain'_cons]
      refine ⟨?_, hlt⟩
      simp only [segGapLt, hstart]
      simp only [segGapLe] at hsn
      omega

theorem combineFreeSegments_chain {l : List MemSegment}
    (h : List.Chain' segGapLe l) : gapOrdered (combineFreeSegments l) := by
  cases l with
  | nil => exact List.chain'_nil
  | cons seg rest =>
    obtain ⟨t, l', heq, -, hlt⟩ := combineAux_chain h
    simpa [combineFreeSegments, heq] using hlt

/-- The coalescing loop does not change a tail whose segments are all
separated by real gaps from each other and from the current segment. -/
theorem combineAux_eq_self :
    ∀ {rest : List MemSegment} {seg : MemSegment},
    List.Chain' segGapLt (seg :: rest) → combineAux seg rest = seg :: rest := by
  intro rest
  induction rest with
  | nil => intro seg _; rfl
  | cons next rest' ih =>
    intro seg hchain
    obtain ⟨hsn, htail⟩ := List.chain'_cons.1 hchain
    have hne : seg.startAddr + seg.length ≠ next.startAddr := by
      simp only [segGapLt] at hsn; omega
    simp only [combineAux, if_neg hne]
    rw [ih htail]

/-- A list whose consecutive segments are already separated by real gaps
is left unchanged by coalescing: segments separated by any gap never
merge. -/
theorem combineFreeSegments_eq_self {l : List MemSegment}
    (h : gapOrdered l) : combineFreeSegments l = l := by
  cases l with
  | nil => rfl
  | cons seg rest => exact combineAux_eq_self h

/-- The coalescing loop leaves an initial stretch of gap-separated
segments alone and continues after it. -/
theorem combineAux_append :
    ∀ {l₁ : List MemSegment} {x m : MemSegment} {tail : List MemSegment},
    List.Chain' segGapLt (x :: (l₁ ++ [m])) →
    combineAux x (l₁ ++ m :: tail) = x :: (l₁ ++ combineAux m tail) := by
  intro l₁
  induction l₁ with
  | nil =>
    intro x m tail hchain
    have hxm : segGapLt x m := (List.chain'_cons.1 hchain).1
    have hne : x.startAddr + x.length ≠ m.startAddr := by
      simp only [segGapLt] at hxm; omega
    simp only [List.nil_append, combineAux, if_neg hne]
  | cons y l₁' ih =>
    intro x m tail hchain
    have hxy : segGapLt x y := (List.chain'_cons.1 hchain).1
    have hne : x.startAddr + x.length ≠ y.startAddr := by
      simp only [segGapLt] at hxy; omega
    simp only [List.cons_append, combineAux, if_neg hne, List.append_eq]
    rw [ih (List.chain'_cons.1 hchain).2]

/-- Coalescing a list that begins with a stretch of gap-separated
segments keeps that stretch and coalesces the remainder. -/
theorem combineFreeSegments_append {l₁ : List MemSegment} {m : MemSegment}
    {tail : List MemSegment} (hchain : List.Chain' segGapLt (l₁ ++ [m])) :
    combineFreeSegments (l₁ ++ m :: tail) = l₁ ++ combineAux m tail := by
  cases l₁ with
  | nil => rfl
  | cons x l₁' => exact combineAux_append hchain

/-- The head of a sorted insertion is the inserted segment or the old
head. -/
theorem insertFree_head {seg : MemSegment} {l : List MemSegment} {b : MemSegment}
    (h : (insertFree seg l).head? = some b) : b = seg ∨ l.head? = some b := by
  cases l with
  | nil => simp [insertFree] at h; exact Or.inl h.symm
  | cons curr rest =>
    simp only [insertFree] at h
    split_ifs at h
    · simp at h; exact Or.inr (by simp [h])
    · simp at h; exact Or.inl h.symm

/-- Inserting a segment disjoint from every member of a gap-ordered list
of non-empty segments gives a list with no overlaps (consecutive segments
may now touch). -/
theorem insertFree_chainLe :
    ∀ {l : List MemSegment} {seg : MemSegment},
    List.Chain' segGapLt l → segsPos l →
    (∀ s ∈ l, segDisjoint seg s) →
    List.Chain' segGapLe (insertFree seg l) := by
  intro l
  induction l with
  | nil => intro seg _ _ _; exact List.chain'_singleton seg
  | cons curr rest ih =>
    intro seg hchain hpos hdis
    have hcurr : segDisjoint seg curr := hdis curr (by simp)
    have hcpos : 0 < curr.length := hpos curr (by simp)
    have hrestpos : segsPos rest := fun s hs => hpos s (List.mem_cons_of_mem _ hs)
    have hrestdis : ∀ s ∈ rest, segDisjoint seg s :=
      fun s hs => hdis s (List.mem_cons_of_mem _ hs)
    have htail : List.Chain' segGapLt rest := (List.chain'_cons'.1 hchain).2
    simp only [insertFree]
    by_cases hlt : curr.startAddr < seg.startAddr
    · rw [if_pos hlt]
      have hce : curr.startAddr + curr.length ≤ seg.startAddr := by
        rcases hcurr with h | h
        · omega
        · exact h
      rw [List.chain'_cons']
      refine ⟨?_, ih htail hrestpos hrestdis⟩
      intro b hb
      rcases insertFree_head hb with rfl | hb'
      · exact hce
      · have := (List.chain'_cons'.1 hchain).1 b hb'
        simp only [segGapLt] at this
        simp only [segGapLe]
        omega
    · rw [if_neg hlt]
      rw [List.chain'_cons]
      constructor
      · rcases hcurr with h | h
        · exact h
        · simp only [segDisjoint, segGapLe] at h ⊢; omega
      · exact (List.chain'_cons'.1 hchain).2.imp
          (fun a b hab => by simp only [segGapLt] at hab; simp only [segGapLe]; omega)
          |>.cons' (by
            intro y hy
            have := (List.chain'_cons'.1 hchain).1 y hy
            simp only [segGapLt] at this
            simp only [segGapLe]
            omega)

/-! ## Pairwise consequences of the counting invariant -/

theorem segGapLt_trans {a b c : MemSegment} (h₁ : segGapLt a b) (h₂ : segGapLt b c) :
    segGapLt a c := by
  simp only [segGapLt] at h₁ h₂ ⊢
  omega

theorem gapOrdered_iff_pairwise {l : List MemSegment} :
    gapOrdered l ↔ l.Pairwise segGapLt := by
  have : IsTrans MemSegment segGapLt := ⟨fun a b c => segGapLt_trans⟩
  exact List.chain'_iff_pairwise

/-- If no address is covered twice, the segments are pairwise disjoint. -/
theorem pairwise_disjoint_of_count {l : List MemSegment} (hpos : segsPos l)
    (hcount : ∀ a, coverCount l a ≤ 1) : l.Pairwise segDisjoint := by
  induction l with
  | nil => exact List.Pairwise.nil
  | cons x xs ih =>
    have hxs : segsPos xs := fun s hs => hpos s (List.mem_cons_of_mem _ hs)
    have hcxs : ∀ a, coverCount xs a ≤ 1 := by
      intro a
      have := hcount a
      simp only [coverCount] at this
      omega
    refine List.pairwise_cons.2 ⟨?_, ih hxs hcxs⟩
    intro y hy
    by_contra hnd
    simp only [segDisjoint, not_or, not_le] at hnd
    obtain ⟨h₁, h₂⟩ := hnd
    have hxpos : 0 < x.length := hpos x (by simp)
    have hypos : 0 < y.length := hpos y (List.mem_cons_of_mem _ hy)
    rcases Nat.le_total x.startAddr y.startAddr with hle | hle
    · have hcx : covers x y.startAddr := ⟨hle, h₁⟩
      have hcy : covers y y.startAddr := ⟨Nat.le_refl _, by omega⟩
      have := hcount y.startAddr
      have hpos' := coverCount_pos_of_mem hy hcy
      simp only [coverCount, if_pos hcx] at this
      omega
    · have hcx : covers x x.startAddr := ⟨Nat.le_refl _, by omega⟩
      have hcy : covers y x.startAddr := ⟨hle, h₂⟩
      have := hcount x.startAddr
      have hpos' := coverCount_pos_of_mem hy hcy
      simp only [coverCount, if_pos hcx] at this
      omega

theorem segDisjoint_symm {s t : MemSegment} (h : segDisjoint s t) : segDisjoint t s :=
  h.symm

/-! ## The invariant is established and preserved -/

theorem ledgerInv_setupHeap : LedgerInv setupHeap := by
  refine ⟨?_, ?_, ?_, ?_⟩
  · intro a
    simp only [setupHeap, List.append_nil, coverCount, covers]
    split_ifs <;> omega
  · intro s hs
    simp only [setupHeap, List.mem_singleton] at hs
    subst hs; simp
  · intro s hs
    simp [setupHeap] at hs
  · exact List.chain'_singleton _

theorem allocFromFree_pos {size : Nat} {l : List MemSegment} {a₀ : Nat}
    {l' : List MemSegment} (h : allocFromFree size l = some (a₀, l'))
    (hl : segsPos l) : segsPos l' := by
  obtain ⟨l₁, seg, l₂, rfl, -, hfit, -, hl'⟩ := allocFromFree_some h
  by_cases hz : seg.length - size = 0
  · rw [if_pos hz] at hl'
    subst hl'
    intro x hx
    rcases List.mem_append.1 hx with hx | hx
    · exact hl x (List.mem_append.2 (Or.inl hx))
    · exact hl x (List.mem_append.2 (Or.inr (List.mem_cons_of_mem _ hx)))
  · rw [if_neg hz] at hl'
    subst hl'
    intro x hx
    rcases List.mem_append.1 hx with hx | hx
    · exact hl x (List.mem_append.2 (Or.inl hx))
    · rcases List.mem_cons.1 hx with rfl | hx
      · simp; omega
      · exact hl x (List.mem_append.2 (Or.inr (List.mem_cons_of_mem _ hx)))

theorem allocFromFree_gapOrdered {size : Nat} {l : List MemSegment} {a₀ : Nat}
    {l' : List MemSegment} (h : allocFromFree size l = some (a₀, l'))
    (hc : gapOrdered l) : gapOrdered l' := by
  obtain ⟨l₁, seg, l₂, rfl, -, hfit, -, hl'⟩ := allocFromFree_some h
  rw [gapOrdered_iff_pairwise] at hc ⊢
  by_cases hz : seg.length - size = 0
  · rw [if_pos hz] at hl'
    subst hl'
    exact hc.sublist (List.Sublist.append_left (List.sublist_cons_self seg l₂) l₁)
  · rw [if_neg hz] at hl'
    subst hl'
    rw [List.pairwise_append] at hc ⊢
    obtain ⟨hc₁, hc₂, hcross⟩ := hc
    rw [List.pairwise_cons] at hc₂ ⊢
    refine ⟨hc₁, ⟨?_, hc₂.2⟩, ?_⟩
    · intro y hy
      have := hc₂.1 y hy
      simp only [segGapLt] at this ⊢
      omega
    · intro x hx b hb
      rcases List.mem_cons.1 hb with rfl | hb
      · have := hcross x hx seg (by simp)
        simp only [segGapLt] at this ⊢
        omega
      · exact hcross x hx b (List.mem_cons_of_mem _ hb)

/-- A successful or failed `requestMemory` preserves the ledger
invariant. -/
theorem ledgerInv_requestMemory {st : HeapState} (base : Nat) (size : Int)
    (inv : LedgerInv st) : LedgerInv (requestMemory base size st).2 := by
  obtain ⟨hcount, hfreePos, hoccPos, hchain⟩ := inv
  simp only [requestMemory]
  split_ifs with hsz
  · exact ⟨hcount, hfreePos, hoccPos, hchain⟩
  · cases halloc : allocFromFree size.toNat st.availableSegs with
    | none => exact ⟨hcount, hfreePos, hoccPos, hchain⟩
    | some out =>
      obtain ⟨a₀, rest⟩ := out
      refine ⟨?_, ?_, ?_, ?_⟩
      · intro a
        have hpres := allocFromFree_coverCount halloc a
        have hc := hcount a
        rw [coverCount_append] at hc
        simp only [coverCount_append, coverCount]
        omega
      · exact allocFromFree_pos halloc hfreePos
      · intro x hx
        simp only at hx
        rcases List.mem_append.1 hx with hx | hx
        · exact hoccPos x hx
        · rcases List.mem_singleton.1 hx with rfl
          simp; omega
      · exact allocFromFree_gapOrdered halloc hchain

/-- A successful or failed `releaseMemory` preserves the ledger
invariant. -/
theorem ledgerInv_releaseMemory {st : HeapState} (base : Nat) (h : Option Nat)
    (inv : LedgerInv st) : LedgerInv (releaseMemory base h st).2 := by
  obtain ⟨hcount, hfreePos, hoccPos, hchain⟩ := inv
  cases h with
  | none => exact ⟨hcount, hfreePos, hoccPos, hchain⟩
  | some hv =>
    simp only [releaseMemory]
    cases hrem : removeOccupied base hv st.occupiedSegs with
    | none => exact ⟨hcount, hfreePos, hoccPos, hchain⟩
    | some out =>
      obtain ⟨seg, occ'⟩ := out
      obtain ⟨l₁, l₂, hocc, rfl, -, -⟩ := removeOccupied_some hrem
      have hsegocc : seg ∈ st.occupiedSegs := by rw [hocc]; simp
      have hsegpos : 0 < seg.length := hoccPos seg hsegocc
      have hallpos : segsPos (st.availableSegs ++ st.occupiedSegs) := by
        intro x hx
        rcases List.mem_append.1 hx with hx | hx
        · exact hfreePos x hx
        · exact hoccPos x hx
      have hdisj : (st.availableSegs ++ st.occupiedSegs).Pairwise segDisjoint := by
        refine pairwise_disjoint_of_count hallpos ?_
        intro a
        rw [hcount a]
        split_ifs <;> omega
      have hsegdis : ∀ s ∈ st.availableSegs, segDisjoint seg s := by
        intro s hs
        exact segDisjoint_symm
          ((List.pairwise_append.1 hdisj).2.2 s hs seg hsegocc)
      show LedgerInv
        (⟨combineFreeSegments (insertFree seg st.availableSegs), l₁ ++ l₂⟩ : HeapState)
      refine ⟨?_, ?_, ?_, ?_⟩
      · intro a
        have hc := hcount a
        rw [coverCount_append] at hc
        rw [hocc, coverCount_append] at hc
        simp only [coverCount] at hc
        show coverCount
          (combineFreeSegments (insertFree seg st.availableSegs) ++ (l₁ ++ l₂)) a
          = if a < 1024 then 1 else 0
        simp only [coverCount_append, combineFreeSegments_coverCount,
          coverCount_perm (insertFree_perm seg st.availableSegs), coverCount]
        omega
      · exact combineFreeSegments_pos (insertFree_pos hsegpos hfreePos)
      · intro x hx
        rcases List.mem_append.1 hx with hx | hx
        · exact hoccPos x (by rw [hocc]; exact List.mem_append.2 (Or.inl hx))
        · exact hoccPos x
            (by rw [hocc]; exact List.mem_append.2 (Or.inr (List.mem_cons_of_mem _ hx)))
      · exact combineFreeSegments_chain (insertFree_chainLe hchain hfreePos hsegdis)

/-- Every reachable state satisfies the ledger invariant. -/
theorem reachable_ledgerInv {base : Nat} {st : HeapState}
    (h : Reachable base st) : LedgerInv st := by
  induction h with
  | init => exact ledgerInv_setupHeap
  | alloc size _ ih => exact ledgerInv_requestMemory _ size ih
  | release hv _ ih => exact ledgerInv_releaseMemory _ hv ih

/-! ## Helpers shared by the claim theorems -/

/-- Shape of a successful `requestMemory` call. -/
theorem requestMemory_ok {base : Nat} {size : Int} {st st₁ : HeapState} {h : Nat}
    (hsucc : requestMemory base size st = (.ok h, st₁)) :
    0 < size ∧ ∃ a₀ rest, allocFromFree size.toNat st.availableSegs = some (a₀, rest) ∧
      h = base + a₀ ∧ st₁ = ⟨rest, st.occupiedSegs ++ [⟨a₀, size.toNat⟩]⟩ := by
  by_cases hsz : size ≤ 0
  · simp only [requestMemory, if_pos hsz] at hsucc
    simp at hsucc
  · simp only [requestMemory, if_neg hsz] at hsucc
    cases halloc : allocFromFree size.toNat st.availableSegs with
    | none => rw [halloc] at hsucc; simp at hsucc
    | some out =>
      obtain ⟨a₀, rest⟩ := out
      rw [halloc] at hsucc
      simp only [Prod.mk.injEq, Except.ok.injEq] at hsucc
      exact ⟨by omega, a₀, rest, rfl, hsucc.1.symm, hsucc.2.symm⟩

/-- In a reachable state all segments, free and occupied together, are
pairwise disjoint. -/
theorem reachable_pairwise_disjoint {base : Nat} {st : HeapState}
    (hr : Reachable base st) :
    (st.availableSegs ++ st.occupiedSegs).Pairwise segDisjoint := by
  obtain ⟨hcount, hfp, hop, -⟩ := reachable_ledgerInv hr
  refine pairwise_disjoint_of_count ?_ ?_
  · intro x hx
    rcases List.mem_append.1 hx with hx | hx
    · exact hfp x hx
    · exact hop x hx
  · intro a
    rw [hcount a]
    split_ifs <;> omega

/-- In a reachable state no two occupied segments share a start address. -/
theorem occupied_starts_distinct {base : Nat} {st : HeapState}
    (hr : Reachable base st) :
    st.occupiedSegs.Pairwise (fun s t => s.startAddr ≠ t.startAddr) := by
  have hdis := (List.pairwise_append.1 (reachable_pairwise_disjoint hr)).2.1
  obtain ⟨-, -, hop, -⟩ := reachable_ledgerInv hr
  refine List.Pairwise.imp_of_mem ?_ hdis
  intro s t hs ht hdisj
  have hspos := hop s hs
  have htpos := hop t ht
  rcases hdisj with hd | hd <;> omega

/-- After a successful `releaseMemory`, no remaining occupied segment
carries the released handle. -/
theorem release_ok_handle_gone {base hv : Nat} {st st' : HeapState}
    (hr : Reachable base st)
    (hrel : releaseMemory base (some hv) st = (.ok (), st')) :
    ∀ seg ∈ st'.occupiedSegs, base + seg.startAddr ≠ hv := by
  simp only [releaseMemory] at hrel
  cases hrem : removeOccupied base hv st.occupiedSegs with
  | none => rw [hrem] at hrel; simp at hrel
  | some out =>
    obtain ⟨seg₀, occ'⟩ := out
    rw [hrem] at hrel
    simp only [Prod.mk.injEq] at hrel
    obtain ⟨-, hst'⟩ := hrel
    obtain ⟨l₁, l₂, hocc, hocc', hall, hseg₀⟩ := removeOccupied_some hrem
    have hdistinct := occupied_starts_distinct hr
    rw [hocc] at hdistinct
    intro s hs
    rw [← hst'] at hs
    replace hs : s ∈ occ' := hs
    rw [hocc'] at hs
    rcases List.mem_append.1 hs with hs | hs
    · exact hall s hs
    · have := (List.pairwise_cons.1 (List.pairwise_append.1 hdistinct).2.1).1 s hs
      omega

/-- Unfolding step of the coalescing loop at an exactly adjacent pair. -/
theorem combineAux_adjacent {x next : MemSegment} {rest : List MemSegment}
    (hadj : x.startAddr + x.length = next.startAddr) :
    combineAux x (next :: rest)
      = combineAux ⟨x.startAddr, x.length + next.length⟩ rest := by
  simp only [combineAux, if_pos hadj]

/-! ## Claim theorems -/

/-- Claim C1: for every sequence of allocate and free calls starting from
the initialized state, the union of the ranges of all free and all
allocated segments equals exactly `[0, 1024)` (every address below 1024
is covered by exactly one segment, every address from 1024 up by none, so
no address is lost or double-counted by split and merge), and any two
distinct ranges, free-free, allocated-allocated or free-allocated, are
disjoint. -/
theorem coverage_partition_invariant (base : Nat) (st : HeapState) (a : Nat)
    (hr : Reachable base st) :
    coverCount (st.availableSegs ++ st.occupiedSegs) a
      = (if a < 1024 then 1 else 0) ∧
    (st.availableSegs ++ st.occupiedSegs).Pairwise segDisjoint :=
  ⟨(reachable_ledgerInv hr).1 a, reachable_pairwise_disjoint hr⟩

/-- Witness for C1: the invariant evaluated in the initial state at
address 5. -/
theorem coverage_partition_invariant_witness :
    coverCount (setupHeap.availableSegs ++ setupHeap.occupiedSegs) 5
      = (if 5 < 1024 then 1 else 0) ∧
    (setupHeap.availableSegs ++ setupHeap.occupiedSegs).Pairwise segDisjoint :=
  coverage_partition_invariant 0 setupHeap 5 Reachable.init

/-- Claim C4: `requestMemory` with `size ≤ 0` fails with `invalidSize`,
and with a positive size no free segment can satisfy fails with
`outOfMemory`; in both cases the state is returned unchanged. -/
theorem requestMemory_error_cases (base : Nat) (st : HeapState) (size : Int) :
    (size ≤ 0 → requestMemory base size st = (.error .invalidSize, st)) ∧
    (0 < size → (∀ seg ∈ st.availableSegs, seg.length < size.toNat) →
      requestMemory base size st = (.error .outOfMemory, st)) := by
  constructor
  · intro hsz
    simp only [requestMemory, if_pos hsz]
  · intro hpos hall
    simp only [requestMemory, if_neg (by omega : ¬ size ≤ 0),
      allocFromFree_none.2 hall]

/-- Witness for C4: `requestMemory` with size `-1` and with an oversized
request of 2000 bytes against the fresh 1024-byte heap. -/
theorem requestMemory_error_cases_witness :
    requestMemory 0 (-1) setupHeap = (.error .invalidSize, setupHeap) ∧
    requestMemory 0 2000 setupHeap = (.error .outOfMemory, setupHeap) :=
  ⟨(requestMemory_error_cases 0 setupHeap (-1)).1 (by decide),
   (requestMemory_error_cases 0 setupHeap 2000).2 (by decide)
     (by intro seg hs; simp only [setupHeap, List.mem_singleton] at hs; subst hs; decide)⟩

/-- Claim C5: `releaseMemory` with a null handle fails with `nullHandle`,
and with a non-null handle carried by no allocated segment fails with
`unknownHandle`; in both cases the free and allocated lists are returned
completely unchanged. -/
theorem releaseMemory_error_cases (base : Nat) (st : HeapState) (h : Nat) :
    releaseMemory base none st = (.error .nullHandle, st) ∧
    ((∀ seg ∈ st.occupiedSegs, base + seg.startAddr ≠ h) →
      releaseMemory base (some h) st = (.error .unknownHandle, st)) := by
  refine ⟨rfl, ?_⟩
  intro hall
  simp only [releaseMemory, removeOccupied_none.2 hall]

/-- Witness for C5: a null free and a free of the never-issued handle 7
in the initial state. -/
theorem releaseMemory_error_cases_witness :
    releaseMemory 0 none setupHeap = (.error .nullHandle, setupHeap) ∧
    releaseMemory 0 (some 7) setupHeap = (.error .unknownHandle, setupHeap) :=
  ⟨(releaseMemory_error_cases 0 setupHeap 7).1,
   (releaseMemory_error_cases 0 setupHeap 7).2 (by intro seg hs; simp [setupHeap] at hs)⟩

/-- Claim C3: in every reachable state the free list is ordered by
strictly ascending start and no two free segments touch or overlap; the
coalescing pass merges a segment with its successor exactly when
`segment.start + segment.length = successor.start`, extending the
survivor by the successor's length, removing the successor and
re-examining the extended segment before advancing; and a list whose
segments are all separated by gaps is never changed by coalescing. -/
theorem freeList_sorted_coalesced (base : Nat) (st : HeapState)
    (l : List MemSegment) (s t : MemSegment) (rest : List MemSegment)
    (hr : Reachable base st) :
    st.availableSegs.Pairwise
      (fun u v => u.startAddr < v.startAddr ∧ u.startAddr + u.length < v.startAddr) ∧
    (s.startAddr + s.length = t.startAddr →
      combineFreeSegments (s :: t :: rest)
        = combineFreeSegments (⟨s.startAddr, s.length + t.length⟩ :: rest)) ∧
    (s.startAddr + s.length ≠ t.startAddr →
      combineFreeSegments (s :: t :: rest) = s :: combineFreeSegments (t :: rest)) ∧
    (gapOrdered l → combineFreeSegments l = l) := by
  refine ⟨?_, ?_, ?_, fun hl => combineFreeSegments_eq_self hl⟩
  · have hchain := (reachable_ledgerInv hr).2.2.2
    have hpw := gapOrdered_iff_pairwise.1 hchain
    refine hpw.imp ?_
    intro u v huv
    simp only [segGapLt] at huv
    exact ⟨by omega, huv⟩
  · intro hadj
    simp only [combineFreeSegments, combineAux, if_pos hadj]
  · intro hne
    simp only [combineFreeSegments, combineAux, if_neg hne]

/-- Witness for C3 in the initial state, with a touching pair and the
gap-ordered list `[⟨0, 5⟩]`. -/
theorem freeList_sorted_coalesced_witness :
    setupHeap.availableSegs.Pairwise
      (fun u v => u.startAddr < v.startAddr ∧ u.startAddr + u.length < v.startAddr) ∧
    ((⟨0, 2⟩ : MemSegment).startAddr + (⟨0, 2⟩ : MemSegment).length
        = (⟨2, 3⟩ : MemSegment).startAddr →
      combineFreeSegments [⟨0, 2⟩, ⟨2, 3⟩]
        = combineFreeSegments [⟨(⟨0, 2⟩ : MemSegment).startAddr,
            (⟨0, 2⟩ : MemSegment).length + (⟨2, 3⟩ : MemSegment).length⟩]) ∧
    ((⟨0, 2⟩ : MemSegment).startAddr + (⟨0, 2⟩ : MemSegment).length
        ≠ (⟨2, 3⟩ : MemSegment).startAddr →
      combineFreeSegments [⟨0, 2⟩, ⟨2, 3⟩]
        = ⟨0, 2⟩ :: combineFreeSegments [⟨2, 3⟩]) ∧
    (gapOrdered [⟨0, 5⟩] → combineFreeSegments [⟨0, 5⟩] = [⟨0, 5⟩]) :=
  freeList_sorted_coalesced 0 setupHeap [⟨0, 5⟩] ⟨0, 2⟩ ⟨2, 3⟩ [] Reachable.init

/-- Claim C9: in every reachable state the handle `base + startAddr`
identifies at most one live allocated segment (no two occupied segments
share a handle value), and the instant a segment is freed its handle is
no longer present in the allocated list. -/
theorem handle_identifies_unique_segment (base : Nat) (st : HeapState) (h : Nat)
    (st' : HeapState) (hr : Reachable base st) :
    st.occupiedSegs.Pairwise (fun s t => base + s.startAddr ≠ base + t.startAddr) ∧
    (releaseMemory base (some h) st = (.ok (), st') →
      ∀ seg ∈ st'.occupiedSegs, base + seg.startAddr ≠ h) := by
  constructor
  · exact (occupied_starts_distinct hr).imp
      (fun hne heq => hne (Nat.add_left_cancel heq))
  · intro hrel
    exact release_ok_handle_gone hr hrel

/-- Witness for C9 in the state after one allocation. -/
theorem handle_identifies_unique_segment_witness :
    (⟨[⟨100, 924⟩], [⟨0, 100⟩]⟩ : HeapState).occupiedSegs.Pairwise
      (fun s t => 0 + s.startAddr ≠ 0 + t.startAddr) ∧
    (releaseMemory 0 (some 0) ⟨[⟨100, 924⟩], [⟨0, 100⟩]⟩
        = (.ok (), ⟨[⟨0, 1024⟩], []⟩) →
      ∀ seg ∈ (⟨[⟨0, 1024⟩], []⟩ : HeapState).occupiedSegs,
        0 + seg.startAddr ≠ 0) :=
  handle_identifies_unique_segment 0 ⟨[⟨100, 924⟩], [⟨0, 100⟩]⟩ 0 ⟨[⟨0, 1024⟩], []⟩
    (Reachable.alloc 100 Reachable.init)

/-- Claim C8: if `releaseMemory` succeeds for a handle, an immediately
repeated `releaseMemory` with the same handle fails with `unknownHandle`
and leaves both lists exactly as the first free left them. -/
theorem double_free_unknownHandle (base : Nat) (st : HeapState) (h : Nat)
    (st₁ : HeapState) (hr : Reachable base st)
    (hfree : releaseMemory base (some h) st = (.ok (), st₁)) :
    releaseMemory base (some h) st₁ = (.error .unknownHandle, st₁) := by
  have hgone := release_ok_handle_gone hr hfree
  simp only [releaseMemory, removeOccupied_none.2 hgone]

/-- Witness for C8: allocate 100 bytes, free the handle, free it again. -/
theorem double_free_unknownHandle_witness :
    releaseMemory 0 (some 0) ⟨[⟨0, 1024⟩], []⟩
      = (.error .unknownHandle, ⟨[⟨0, 1024⟩], []⟩) :=
  double_free_unknownHandle 0 ⟨[⟨100, 924⟩], [⟨0, 100⟩]⟩ 0 ⟨[⟨0, 1024⟩], []⟩
    (Reachable.alloc 100 Reachable.init) rfl

/-- Claim C10: a successful `requestMemory` modifies only the chosen free
segment: the free list keeps every other segment and their relative
order (the chosen segment is either dropped or shrunk in place), every
previously allocated segment is unchanged, and the new allocated segment
is appended at the tail of the allocated list. -/
theorem requestMemory_frame (base : Nat) (st : HeapState) (size : Int) (h : Nat)
    (st' : HeapState) (hsucc : requestMemory base size st = (.ok h, st')) :
    ∃ l₁ seg l₂,
      st.availableSegs = l₁ ++ seg :: l₂ ∧
      st'.occupiedSegs = st.occupiedSegs ++ [⟨seg.startAddr, size.toNat⟩] ∧
      (st'.availableSegs = l₁ ++ l₂ ∨
        st'.availableSegs
          = l₁ ++ ⟨seg.startAddr + size.toNat, seg.length - size.toNat⟩ :: l₂) := by
  obtain ⟨-, a₀, rest, halloc, -, hst'⟩ := requestMemory_ok hsucc
  obtain ⟨l₁, seg, l₂, hdecomp, -, -, ha, hrest⟩ := allocFromFree_some halloc
  subst ha
  refine ⟨l₁, seg, l₂, hdecomp, ?_, ?_⟩
  · rw [hst']
  · rw [hst']
    by_cases hz : seg.length - size.toNat = 0
    · left; rw [hrest, if_pos hz]
    · right; rw [hrest, if_neg hz]

/-- Witness for C10: the first allocation of 100 bytes from the fresh
heap. -/
theorem requestMemory_frame_witness :
    ∃ l₁ seg l₂,
      setupHeap.availableSegs = l₁ ++ seg :: l₂ ∧
      (⟨[⟨100, 924⟩], [⟨0, 100⟩]⟩ : HeapState).occupiedSegs
        = setupHeap.occupiedSegs ++ [⟨seg.startAddr, (100 : Int).toNat⟩] ∧
      ((⟨[⟨100, 924⟩], [⟨0, 100⟩]⟩ : HeapState).availableSegs = l₁ ++ l₂ ∨
        (⟨[⟨100, 924⟩], [⟨0, 100⟩]⟩ : HeapState).availableSegs
          = l₁ ++ ⟨seg.startAddr + (100 : Int).toNat,
              seg.length - (100 : Int).toNat⟩ :: l₂) :=
  requestMemory_frame 0 setupHeap 100 0 ⟨[⟨100, 924⟩], [⟨0, 100⟩]⟩ rfl

/-- Claim C2: for every reachable state and positive size fitting some
free segment, `requestMemory` selects the first fitting segment in
ascending-start order (everything before it is both too small and of
smaller start), carves the allocated segment of exactly that size from
the low end of the chosen segment, returns handle `base + start`,
advances the chosen free segment's start and shrinks its length by the
size, removing it entirely when the remainder is zero, and afterwards no
zero-length segment exists in either collection. -/
theorem requestMemory_first_fit (base : Nat) (st : HeapState) (size : Int)
    (hr : Reachable base st) (hpos : 0 < size)
    (hex : ∃ seg ∈ st.availableSegs, size.toNat ≤ seg.length) :
    ∃ l₁ seg l₂,
      st.availableSegs = l₁ ++ seg :: l₂ ∧
      (∀ s ∈ l₁, s.length < size.toNat) ∧
      (∀ s ∈ l₁, s.startAddr < seg.startAddr) ∧
      size.toNat ≤ seg.length ∧
      requestMemory base size st
        = (.ok (base + seg.startAddr),
           ⟨(if seg.length - size.toNat = 0 then l₁ ++ l₂
             else l₁ ++ ⟨seg.startAddr + size.toNat, seg.length - size.toNat⟩ :: l₂),
            st.occupiedSegs ++ [⟨seg.startAddr, size.toNat⟩]⟩) ∧
      segsPos (requestMemory base size st).2.availableSegs ∧
      segsPos (requestMemory base size st).2.occupiedSegs := by
  cases halloc : allocFromFree size.toNat st.availableSegs with
  | none =>
    obtain ⟨seg, hmem, hfit⟩ := hex
    have := allocFromFree_none.1 halloc seg hmem
    omega
  | some out =>
    obtain ⟨a₀, rest⟩ := out
    obtain ⟨l₁, seg, l₂, hdecomp, hsmall, hfit, ha, hrest⟩ := allocFromFree_some halloc
    subst ha
    have hreq : requestMemory base size st
        = (.ok (base + seg.startAddr),
           ⟨rest, st.occupiedSegs ++ [⟨seg.startAddr, size.toNat⟩]⟩) := by
      simp only [requestMemory, if_neg (by omega : ¬ size ≤ 0), halloc]
    have hchain := (reachable_ledgerInv hr).2.2.2
    have hpw := gapOrdered_iff_pairwise.1 hchain
    rw [hdecomp, List.pairwise_append] at hpw
    have hinv := reachable_ledgerInv (Reachable.alloc size hr)
    refine ⟨l₁, seg, l₂, hdecomp, hsmall, ?_, hfit, ?_, hinv.2.1, hinv.2.2.1⟩
    · intro s hs
      have := hpw.2.2 s hs seg (by simp)
      simp only [segGapLt] at this
      omega
    · rw [hreq, hrest]

/-- Witness for C2: the first allocation of 100 bytes from the fresh
heap. -/
theorem requestMemory_first_fit_witness :
    ∃ l₁ seg l₂,
      setupHeap.availableSegs = l₁ ++ seg :: l₂ ∧
      (∀ s ∈ l₁, s.length < (100 : Int).toNat) ∧
      (∀ s ∈ l₁, s.startAddr < seg.startAddr) ∧
      (100 : Int).toNat ≤ seg.length ∧
      requestMemory 0 100 setupHeap
        = (.ok (0 + seg.startAddr),
           ⟨(if seg.length - (100 : Int).toNat = 0 then l₁ ++ l₂
             else l₁ ++ ⟨seg.startAddr + (100 : Int).toNat,
               seg.length - (100 : Int).toNat⟩ :: l₂),
            setupHeap.occupiedSegs ++ [⟨seg.startAddr, (100 : Int).toNat⟩]⟩) ∧
      segsPos (requestMemory 0 100 setupHeap).2.availableSegs ∧
      segsPos (requestMemory 0 100 setupHeap).2.occupiedSegs :=
  requestMemory_first_fit 0 setupHeap 100 Reachable.init (by decide)
    ⟨⟨0, 1024⟩, by simp [setupHeap], by decide⟩

/-- Claim C6: from any reachable state, a successful allocation followed
immediately by a free of the returned handle restores the heap state
exactly: the free list returns to its pre-allocation ranges (the carved
piece is re-merged by coalescing) and the allocated list is exactly what
it was before the allocate. -/
theorem alloc_free_roundtrip (base : Nat) (st : HeapState) (size : Int) (h : Nat)
    (st₁ : HeapState) (hr : Reachable base st) (hpos : 0 < size)
    (halloc : requestMemory base size st = (.ok h, st₁)) :
    releaseMemory base (some h) st₁ = (.ok (), st) := by
  obtain ⟨-, a₀, rest, hA, rfl, rfl⟩ := requestMemory_ok halloc
  obtain ⟨l₁, seg, l₂, hdecomp, hsmall, hfit, ha, hrest⟩ := allocFromFree_some hA
  subst ha
  obtain ⟨hcount, hfreePos, hoccPos, hchain₀⟩ := reachable_ledgerInv hr
  have hdisj := reachable_pairwise_disjoint hr
  have hsegmem : seg ∈ st.availableSegs := by rw [hdecomp]; simp
  have hsegpos : 0 < seg.length := hfreePos seg hsegmem
  have hdiff : ∀ s ∈ st.occupiedSegs,
      base + s.startAddr ≠ base + seg.startAddr := by
    intro s hs heq
    have hd : segDisjoint seg s :=
      (List.pairwise_append.1 hdisj).2.2 seg hsegmem s hs
    have hspos := hoccPos s hs
    rcases hd with hd | hd <;> omega
  have hrem : removeOccupied base (base + seg.startAddr)
      (st.occupiedSegs ++ [⟨seg.startAddr, size.toNat⟩])
      = some (⟨seg.startAddr, size.toNat⟩, st.occupiedSegs) :=
    removeOccupied_append_last hdiff rfl
  have hchain : List.Chain' segGapLt (l₁ ++ seg :: l₂) := by
    rw [← hdecomp]; exact hchain₀
  have hcparts := List.chain'_append.1 hchain
  obtain ⟨hc₁, hc₂, hcb⟩ := hcparts
  have hpw : (l₁ ++ seg :: l₂).Pairwise segGapLt := gapOrdered_iff_pairwise.1 hchain
  have hl₁lt : ∀ x ∈ l₁, x.startAddr < seg.startAddr := by
    intro x hx
    have := (List.pairwise_append.1 hpw).2.2 x hx seg (by simp)
    simp only [segGapLt] at this
    omega
  have hl₂head : ∀ y ∈ l₂.head?, ¬ y.startAddr < seg.startAddr := by
    intro y hy
    have := (List.chain'_cons'.1 hc₂).1 y hy
    simp only [segGapLt] at this
    omega
  have hfree : combineFreeSegments
      (insertFree ⟨seg.startAddr, size.toNat⟩ rest) = st.availableSegs := by
    by_cases hz : seg.length - size.toNat = 0
    · rw [if_pos hz] at hrest
      subst hrest
      have hsegeq : (⟨seg.startAddr, size.toNat⟩ : MemSegment) = seg := by
        have hlen : size.toNat = seg.length := by omega
        rw [hlen]
      rw [hsegeq, insertFree_append hl₁lt hl₂head, ← hdecomp]
      exact combineFreeSegments_eq_self hchain₀
    · rw [if_neg hz] at hrest
      subst hrest
      have hmid_head : ∀ y ∈ ((⟨seg.startAddr + size.toNat,
          seg.length - size.toNat⟩ : MemSegment) :: l₂).head?,
          ¬ y.startAddr < (⟨seg.startAddr, size.toNat⟩ : MemSegment).startAddr := by
        intro y hy
        simp only [List.head?_cons, Option.mem_def, Option.some.injEq] at hy
        subst hy
        exact (by omega : ¬ seg.startAddr + size.toNat < seg.startAddr)
      rw [@insertFree_append ⟨seg.startAddr, size.toNat⟩ l₁
        (⟨seg.startAddr + size.toNat, seg.length - size.toNat⟩ :: l₂) hl₁lt hmid_head]
      have hchainstub : List.Chain' segGapLt
          (l₁ ++ [(⟨seg.startAddr, size.toNat⟩ : MemSegment)]) := by
        rw [List.chain'_append]
        refine ⟨hc₁, List.chain'_singleton _, ?_⟩
        intro x hx y hy
        simp only [List.head?_cons, Option.mem_def, Option.some.injEq] at hy
        subst hy
        exact hcb x hx seg rfl
      rw [combineFreeSegments_append hchainstub]
      have hcore : combineAux (⟨seg.startAddr, size.toNat⟩ : MemSegment)
          ((⟨seg.startAddr + size.toNat, seg.length - size.toNat⟩ : MemSegment) :: l₂)
          = seg :: l₂ := by
        rw [combineAux_adjacent rfl]
        show combineAux ⟨seg.startAddr, size.toNat + (seg.length - size.toNat)⟩ l₂
          = seg :: l₂
        have hlen2 : size.toNat + (seg.length - size.toNat) = seg.length := by omega
        rw [hlen2]
        show combineAux seg l₂ = seg :: l₂
        exact combineAux_eq_self hc₂
      rw [hcore, ← hdecomp]
  simp only [releaseMemory, hrem, hfree]

/-- Witness for C6: allocate 100 bytes from the fresh heap and free the
returned handle. -/
theorem alloc_free_roundtrip_witness :
    releaseMemory 0 (some 0) ⟨[⟨100, 924⟩], [⟨0, 100⟩]⟩ = (.ok (), setupHeap) :=
  alloc_free_roundtrip 0 setupHeap 100 0 ⟨[⟨100, 924⟩], [⟨0, 100⟩]⟩
    Reachable.init (by decide) rfl

/-- Claim C7: on the 1024-byte heap, allocating 100 bytes (handle
`base + 0`), then 200 bytes (handle `base + 100`), freeing the first
handle and allocating 50 bytes places the final allocation at start 0,
reusing the lowest freed hole, not at start 300. -/
theorem first_fit_reuses_lowest_hole (base : Nat) :
    requestMemory base 100 setupHeap
      = (.ok (base + 0), ⟨[⟨100, 924⟩], [⟨0, 100⟩]⟩) ∧
    requestMemory base 200 ⟨[⟨100, 924⟩], [⟨0, 100⟩]⟩
      = (.ok (base + 100), ⟨[⟨300, 724⟩], [⟨0, 100⟩, ⟨100, 200⟩]⟩) ∧
    releaseMemory base (some (base + 0)) ⟨[⟨300, 724⟩], [⟨0, 100⟩, ⟨100, 200⟩]⟩
      = (.ok (), ⟨[⟨0, 100⟩, ⟨300, 724⟩], [⟨100, 200⟩]⟩) ∧
    requestMemory base 50 ⟨[⟨0, 100⟩, ⟨300, 724⟩], [⟨100, 200⟩]⟩
      = (.ok (base + 0), ⟨[⟨50, 50⟩, ⟨300, 724⟩], [⟨100, 200⟩, ⟨0, 50⟩]⟩) := by
  refine ⟨rfl, rfl, ?_, rfl⟩
  have hr1 : removeOccupied base base [⟨0, 100⟩, ⟨100, 200⟩]
      = some (⟨0, 100⟩, [⟨100, 200⟩]) := by
    simp [removeOccupied]
  simp [releaseMemory, hr1, insertFree, combineFreeSegments, combineAux]
